import Mathlib

/-!
# Verification of the verl_prime advantage-estimation and orchestration core

A shallow embedding, over `ℚ`-valued list tensors, of the algorithmic core of the
`verl_prime` repository: the KL controllers, the advantage/return estimators
(`compute_gae_advantage_return`, `compute_reinforce_returns`, `compute_rloo`-style
leave-one-out correction, `compute_gae_value_returns`), the KL-penalty application,
the accuracy group filter, the overflow buffer, the collection loop, and the
`dpo_acc` pairwise ranking metric.

A tensor of shape `(bs, response_length)` is a `List (List ℚ)`; a boolean mask a
`List (List Bool)`. The final whitening pass (`verl_F.masked_whiten`, an
order-preserving masked normalization whose source lives outside the files under
study) is not part of the embedded pipeline; all theorems below concern the reward,
return and pre-whitening advantage computations, which is what the claims assert.
-/

namespace VerlPrime

/-- Sum of the entries of `r` at positions where `m` is `true`
(`tensor[mask].sum()` for a single row). -/
def maskedSum : List ℚ → List Bool → ℚ
  | [], _ => 0
  | _, [] => 0
  | x :: xs, b :: bs => (if b then x else 0) + maskedSum xs bs

/-- Number of `true` entries of a mask row. -/
def maskedCount : List Bool → ℕ
  | [] => 0
  | b :: bs => (if b then 1 else 0) + maskedCount bs

/-- Masked mean of one row: `tensor[mask].mean()` (sum of the masked entries divided
by their count). -/
def rowMaskedMean (r : List ℚ) (m : List Bool) : ℚ :=
  maskedSum r m / (maskedCount m : ℚ)

/-- The update `reward_tensor[~mask] = 0`: zero the entries outside the mask, keep the rest. -/
def maskedZero : List ℚ → List Bool → List ℚ
  | [], _ => []
  | _, [] => []
  | x :: xs, b :: bs => (if b then x else 0) :: maskedZero xs bs

/-- Split a list into contiguous chunks of `n` (the `for start_pos in
range(0, shape[0], n_samples)` iteration pattern), with explicit fuel so the
definition is structurally recursive. -/
def chunksF (n : ℕ) : ℕ → List α → List (List α)
  | 0, _ => []
  | _, [] => []
  | fuel + 1, l => l.take n :: chunksF n fuel (l.drop n)

/-- Contiguous chunks of size `n` of a list. -/
def chunks (n : ℕ) (l : List α) : List (List α) :=
  chunksF n l.length l

/-! ## KL controllers (`core_algos.AdaptiveKLController`, `core_algos.FixedKLController`) -/

/-- The clamp `np.clip(x, lo, hi)` on rationals. -/
def npClip (x lo hi : ℚ) : ℚ := max lo (min hi x)

/-- State of `core_algos.AdaptiveKLController`: coefficient `value`, `target` KL and
`horizon`. -/
structure AdaptiveKLController where
  value : ℚ
  target : ℚ
  horizon : ℚ
  deriving DecidableEq, Repr

/-- The update of `AdaptiveKLController`: `proportional_error = clip(current_kl/target - 1,
-0.2, 0.2)`; `mult = 1 + proportional_error * n_steps / horizon`; `value *= mult`. -/
def AdaptiveKLController.update (c : AdaptiveKLController) (current_kl : ℚ) (n_steps : ℕ) :
    AdaptiveKLController :=
  let proportional_error := npClip (current_kl / c.target - 1) (-(1/5)) (1/5)
  let mult := 1 + proportional_error * (n_steps : ℚ) / c.horizon
  { c with value := c.value * mult }

/-- State of `core_algos.FixedKLController`: just the coefficient. -/
structure FixedKLController where
  value : ℚ
  deriving DecidableEq, Repr

/-- The update of `FixedKLController` is a no-op (`pass`). -/
def FixedKLController.update (c : FixedKLController) (_current_kl : ℚ) (_n_steps : ℕ) :
    FixedKLController :=
  c

/-! ## `compute_gae_advantage_return` and `compute_reinforce_returns` -/

/-- One row of the backward GAE recurrence of `compute_gae_advantage_return`:
`nextvalues = values[:, t+1]` (or `0` at the last step), `delta = r_t +
gamma*nextvalues - v_t`, `lastgaelam = delta + gamma*lam*lastgaelam`. -/
def gaeAdvRow (gamma lam : ℚ) : List ℚ → List ℚ → List ℚ
  | [], _ => []
  | _ :: _, [] => []
  | r :: rs, v :: vs =>
    let rest := gaeAdvRow gamma lam rs vs
    (r + gamma * vs.headD 0 - v + gamma * lam * rest.headD 0) :: rest

/-- The function `compute_gae_advantage_return` on one batch: the (pre-whitening) advantages and
`returns = advantages + values`.  The `eos_mask` argument only feeds the final
whitening of advantages in the source and leaves both outputs below untouched. -/
def compute_gae_advantage_return (token_level_rewards values : List (List ℚ))
    (_eos_mask : List (List Bool)) (gamma lam : ℚ) :
    List (List ℚ) × List (List ℚ) :=
  let advantages := List.zipWith (gaeAdvRow gamma lam) token_level_rewards values
  let returns := List.zipWith (fun a v => List.zipWith (· + ·) a v) advantages values
  (advantages, returns)

/-- One row of `compute_reinforce_returns`: `return_t = r_t + gamma * return_{t+1}`,
`return` after the last token being `0`. -/
def reinforceReturnsRow (gamma : ℚ) : List ℚ → List ℚ
  | [] => []
  | r :: rs =>
    let rest := reinforceReturnsRow gamma rs
    (r + gamma * rest.headD 0) :: rest

/-- The function `compute_reinforce_returns` on one batch (returns only; the advantage is a
whitened copy of the returns). -/
def compute_reinforce_returns (token_level_rewards : List (List ℚ)) (gamma : ℚ) :
    List (List ℚ) :=
  token_level_rewards.map (reinforceReturnsRow gamma)

/-- Reverse cumulative sum (suffix sums) of one row. -/
def revCumsum : List ℚ → List ℚ
  | [] => []
  | r :: rs =>
    let rest := revCumsum rs
    (r + rest.headD 0) :: rest

lemma revCumsum_length (r : List ℚ) : (revCumsum r).length = r.length := by
  induction r with
  | nil => rfl
  | cons x xs ih => simp [revCumsum, ih]

lemma gaeAdvRow_zero_values (r : List ℚ) :
    gaeAdvRow 1 1 r (List.replicate r.length 0) = revCumsum r := by
  induction r with
  | nil => rfl
  | cons x xs ih =>
    simp only [List.length_cons, List.replicate_succ, gaeAdvRow, revCumsum, ih]
    cases xs with
    | nil => norm_num [revCumsum]
    | cons y ys => simp [List.replicate_succ]

lemma zipWith_add_replicate_zero (l : List ℚ) :
    List.zipWith (· + ·) l (List.replicate l.length 0) = l := by
  induction l with
  | nil => rfl
  | cons x xs ih => simp [List.replicate_succ, ih]

lemma reinforceReturnsRow_one (r : List ℚ) : reinforceReturnsRow 1 r = revCumsum r := by
  induction r with
  | nil => rfl
  | cons x xs ih => simp [reinforceReturnsRow, revCumsum, ih]

/-- C6: for every rewards tensor and every mask, `compute_gae_advantage_return` with
values identically zero and `gamma = 1`, `lam = 1` produces a returns tensor equal to
the reverse cumulative sum of the token-level rewards, which coincides with the
REINFORCE (`gamma = 1`) Monte-Carlo return of `compute_reinforce_returns`. -/
theorem C6_gae_zero_values_is_reverse_cumsum (rewards : List (List ℚ))
    (mask : List (List Bool)) :
    (compute_gae_advantage_return rewards (rewards.map (fun r => List.replicate r.length 0))
        mask 1 1).2 = rewards.map revCumsum
    ∧ rewards.map revCumsum = compute_reinforce_returns rewards 1 := by
  constructor
  · simp only [compute_gae_advantage_return]
    induction rewards with
    | nil => rfl
    | cons r rs ih =>
      simp only [List.map_cons, List.zipWith_cons_cons, gaeAdvRow_zero_values]
      rw [← revCumsum_length r, zipWith_add_replicate_zero]
      exact congrArg _ ih
  · simp [compute_reinforce_returns, reinforceReturnsRow_one]

/-- C4: the adaptive KL controller's update multiplies `value` by
`1 + clip(current_kl/target - 1, -0.2, 0.2) * n_steps/horizon`, the fixed
controller's update is a no-op, and whenever `current_kl = target` (with a nonzero
target, so the quotient is defined) the proportional error is `0` and `value` is
unchanged. -/
theorem C4_kl_controller_update (c : AdaptiveKLController) (f : FixedKLController)
    (current_kl : ℚ) (n : ℕ) :
    (c.update current_kl n).value
      = c.value * (1 + npClip (current_kl / c.target - 1) (-(1/5)) (1/5) * (n : ℚ) / c.horizon)
    ∧ f.update current_kl n = f
    ∧ (c.target ≠ 0 → (c.update c.target n).value = c.value) := by
  refine ⟨rfl, rfl, fun ht => ?_⟩
  simp [AdaptiveKLController.update, npClip, div_self ht]

/-- Witness for C4 at a concrete controller state. -/
theorem C4_kl_controller_update_witness :
    ((3 : ℚ) ≠ 0)
    ∧ (AdaptiveKLController.update ⟨2, 3, 7⟩ 3 5).value = 2 :=
  ⟨by norm_num, (C4_kl_controller_update ⟨2, 3, 7⟩ ⟨1⟩ 3 5).2.2 (by norm_num)⟩

/-! ## RLOO leave-one-out correction
(`recipe/prime/prime_core_algos.compute_rloo_advantage_return.masked_rloo`; the
same per-group arithmetic appears in `core_algos.compute_rloo_returns`). -/

/-- One sequence's reward row together with its reward mask. -/
abbrev RewardRow := List ℚ × List Bool

/-- The `cur_reward_baseline` of the `masked_rloo` group loop: the per-sequence masked
means (`cur_rewards_mean`, a concatenation over the group) are summed and divided by
`n_samples - 1`. -/
def rlooBaseline (n : ℕ) (g : List RewardRow) : ℚ :=
  (g.map (fun p => rowMaskedMean p.1 p.2)).sum / ((n : ℚ) - 1)

/-- Body of the `for start_pos in range(0, shape[0], n_samples)` loop of
`masked_rloo`, acting on one contiguous group whose rows have already had the
entries outside the mask zeroed: every masked entry is rescaled by
`n_samples/(n_samples - 1)` with the baseline subtracted, the other entries are
kept (they were zeroed beforehand). -/
def rlooGroupUpdate (n : ℕ) (g : List RewardRow) : List (List ℚ) :=
  g.map fun p =>
    List.zipWith (fun x flag =>
      if flag then x * ((n : ℚ) / ((n : ℚ) - 1)) - rlooBaseline n g else x) p.1 p.2

/-- The function `masked_rloo`: clone the reward tensor, zero the entries outside the mask, then
apply the leave-one-out group update to every contiguous group of `n_samples`
rows. -/
def masked_rloo (n : ℕ) (rows : List (List ℚ)) (masks : List (List Bool)) :
    List (List ℚ) :=
  ((chunks n (List.zipWith (fun r m => (maskedZero r m, m)) rows masks)).map
    (rlooGroupUpdate n)).flatten

/-- The RLOO group transform as the specification words it: each sequence's masked
mean reward is computed, the group means are summed, the baseline is that sum
divided by `n_samples - 1`, each masked reward value is rescaled by
`n_samples/(n_samples - 1)` with the baseline subtracted, and unmasked positions
carry no reward. -/
def rlooSpecGroup (n : ℕ) (g : List RewardRow) : List (List ℚ) :=
  g.map fun p =>
    List.zipWith (fun x flag =>
      if flag then x * ((n : ℚ) / ((n : ℚ) - 1)) - rlooBaseline n g else 0) p.1 p.2

/-- All sequences of a group carry the same scalar reward `x` at a single masked
position. -/
def uniformSingleReward (x : ℚ) (g : List RewardRow) : Prop :=
  ∀ p ∈ g, maskedCount p.2 = 1 ∧ maskedSum p.1 p.2 = x

instance (x : ℚ) (g : List RewardRow) : Decidable (uniformSingleReward x g) := by
  unfold uniformSingleReward; infer_instance

lemma chunksF_flatten (n : ℕ) (hn : 1 ≤ n) (gs : List (List α))
    (hg : ∀ g ∈ gs, g.length = n) :
    ∀ fuel, gs.length ≤ fuel → chunksF n fuel gs.flatten = gs := by
  induction gs with
  | nil =>
    intro fuel _
    cases fuel <;> rfl
  | cons g rest ih =>
    intro fuel hfuel
    cases fuel with
    | zero => simp at hfuel
    | succ f =>
      have hgl : g.length = n := hg g (by simp)
      obtain ⟨a, as, rfl⟩ : ∃ a as, g = a :: as := by
        cases g with
        | nil => exfalso; simp at hgl; omega
        | cons a as => exact ⟨a, as, rfl⟩
      have h1 : ((a :: as) ++ rest.flatten).take n = a :: as := by
        rw [← hgl]; exact List.take_left ..
      have h2 : ((a :: as) ++ rest.flatten).drop n = rest.flatten := by
        rw [← hgl]; exact List.drop_left ..
      rw [List.flatten_cons, List.cons_append,
        show chunksF n (f + 1) (a :: (as ++ rest.flatten))
            = (a :: (as ++ rest.flatten)).take n
              :: chunksF n f ((a :: (as ++ rest.flatten)).drop n) from rfl,
        ← List.cons_append, h1, h2,
        ih (fun g' hg' => hg g' (List.mem_cons_of_mem _ hg')) f (by simpa using hfuel)]

lemma sum_map_length (n : ℕ) (gs : List (List α)) (hg : ∀ g ∈ gs, g.length = n) :
    (gs.map List.length).sum = gs.length * n := by
  induction gs with
  | nil => simp
  | cons g rest ih =>
    simp only [List.map_cons, List.sum_cons, List.length_cons, hg g (by simp),
      ih (fun g' h => hg g' (by simp [h]))]
    ring

lemma chunks_flatten (n : ℕ) (hn : 1 ≤ n) (gs : List (List α))
    (hg : ∀ g ∈ gs, g.length = n) : chunks n gs.flatten = gs := by
  apply chunksF_flatten n hn gs hg
  rw [List.length_flatten, sum_map_length n gs hg]
  exact Nat.le_mul_of_pos_right _ hn

lemma zipWith_fst_snd (f : α → β → γ) (l : List (α × β)) :
    List.zipWith f (l.map Prod.fst) (l.map Prod.snd) = l.map (fun p => f p.1 p.2) := by
  induction l with
  | nil => rfl
  | cons p ps ih => simp [ih]

lemma maskedSum_maskedZero (r : List ℚ) (m : List Bool) :
    maskedSum (maskedZero r m) m = maskedSum r m := by
  induction r generalizing m with
  | nil => cases m <;> rfl
  | cons x xs ih =>
    cases m with
    | nil => rfl
    | cons b bs => cases b <;> simp [maskedZero, maskedSum, ih]

lemma rowMaskedMean_maskedZero (r : List ℚ) (m : List Bool) :
    rowMaskedMean (maskedZero r m) m = rowMaskedMean r m := by
  simp [rowMaskedMean, maskedSum_maskedZero]

lemma rlooRow_zeroed (c bl : ℚ) (r : List ℚ) (m : List Bool) :
    List.zipWith (fun x flag => if flag then x * c - bl else x) (maskedZero r m) m
      = List.zipWith (fun x flag => if flag then x * c - bl else 0) r m := by
  induction r generalizing m with
  | nil => cases m <;> rfl
  | cons x xs ih =>
    cases m with
    | nil => rfl
    | cons b bs => cases b <;> simp [maskedZero, ih]

lemma rlooGroupUpdate_zeroed (n : ℕ) (g : List RewardRow) :
    rlooGroupUpdate n (g.map (fun p => (maskedZero p.1 p.2, p.2)))
      = rlooSpecGroup n g := by
  have hb : rlooBaseline n (g.map (fun p => (maskedZero p.1 p.2, p.2)))
      = rlooBaseline n g := by
    unfold rlooBaseline
    rw [List.map_map]
    congr 2
    refine List.map_congr_left fun p _ => ?_
    simpa [Function.comp] using rowMaskedMean_maskedZero p.1 p.2
  unfold rlooGroupUpdate rlooSpecGroup
  rw [hb, List.map_map]
  refine List.map_congr_left fun p _ => ?_
  simpa [Function.comp] using
    rlooRow_zeroed ((n : ℚ) / ((n : ℚ) - 1)) (rlooBaseline n g) p.1 p.2

lemma maskedSum_eq_zero_of_count_zero (r : List ℚ) (m : List Bool)
    (h : maskedCount m = 0) : maskedSum r m = 0 := by
  induction r generalizing m with
  | nil => cases m <;> rfl
  | cons x xs ih =>
    cases m with
    | nil => rfl
    | cons b bs =>
      cases b with
      | false => simpa [maskedSum] using ih bs (by simpa [maskedCount] using h)
      | true => simp [maskedCount] at h

lemma zipWith_zero_of_count_zero (f : ℚ → ℚ) (r : List ℚ) (m : List Bool)
    (h : maskedCount m = 0) :
    ∀ v ∈ List.zipWith (fun y flag => if flag then f y else 0) r m, v = 0 := by
  induction r generalizing m with
  | nil => intro v hv; simp at hv
  | cons x xs ih =>
    cases m with
    | nil => intro v hv; simp at hv
    | cons b bs =>
      cases b with
      | false =>
        intro v hv
        rcases List.mem_cons.mp hv with h' | h'
        · simpa using h'
        · exact ih bs (by simpa [maskedCount] using h) v h'
      | true => simp [maskedCount] at h

lemma uniform_row_zero (c x : ℚ) (r : List ℚ) (m : List Bool)
    (hc : maskedCount m = 1) (hs : maskedSum r m = x) :
    ∀ v ∈ List.zipWith (fun y flag => if flag then y * c - x * c else 0) r m, v = 0 := by
  induction r generalizing m with
  | nil => intro v hv; simp at hv
  | cons y ys ih =>
    cases m with
    | nil => intro v hv; simp at hv
    | cons b bs =>
      cases b with
      | false =>
        intro v hv
        rcases List.mem_cons.mp hv with h' | h'
        · simpa using h'
        · exact ih bs (by simpa [maskedCount] using hc)
            (by simpa [maskedSum] using hs) v h'
      | true =>
        have hbs : maskedCount bs = 0 := by simpa [maskedCount] using hc
        have hy : y = x := by
          have := maskedSum_eq_zero_of_count_zero ys bs hbs
          simpa [maskedSum, this] using hs
        intro v hv
        rcases List.mem_cons.mp hv with h' | h'
        · simp [h', hy]
        · exact zipWith_zero_of_count_zero (fun y => y * c - x * c) ys bs hbs v h'

lemma sum_of_constant (l : List ℚ) (x : ℚ) (h : ∀ v ∈ l, v = x) :
    l.sum = l.length * x := by
  induction l with
  | nil => simp
  | cons a as ih =>
    simp only [List.sum_cons, List.length_cons, h a (by simp)]
    rw [ih (fun v hv => h v (by simp [hv]))]
    push_cast
    ring

/-- C1: for every batch that is a concatenation of contiguous groups of `n_samples`
sequences, `masked_rloo` transforms each group exactly as the specification words
it (masked mean per sequence, group means summed, baseline `sum / (n_samples - 1)`,
each masked reward rescaled by `n_samples/(n_samples - 1)` with the baseline
subtracted, zero outside the mask); consequently, when all sequences of a group
carry the same scalar reward `x` at a single masked position, every corrected
reward in that group is exactly `0`. -/
theorem C1_rloo_group_transform (n : ℕ) (hn : 2 ≤ n)
    (gs : List (List RewardRow)) (hg : ∀ g ∈ gs, g.length = n) :
    masked_rloo n (gs.flatten.map Prod.fst) (gs.flatten.map Prod.snd)
        = (gs.map (rlooSpecGroup n)).flatten
    ∧ ∀ g ∈ gs, ∀ x : ℚ, uniformSingleReward x g →
        ∀ row ∈ rlooSpecGroup n g, ∀ v ∈ row, v = 0 := by
  constructor
  · unfold masked_rloo
    rw [zipWith_fst_snd (fun r m => (maskedZero r m, m)) gs.flatten,
      List.map_flatten,
      chunks_flatten n (by omega) _
        (by
          intro g' hg'
          rcases List.mem_map.mp hg' with ⟨g, hgmem, rfl⟩
          simpa using hg g hgmem),
      List.map_map]
    refine congrArg List.flatten (List.map_congr_left fun g _ => ?_)
    exact rlooGroupUpdate_zeroed n g
  · intro g hgmem x hx row hrow v hv
    simp only [rlooSpecGroup, rlooBaseline] at hrow
    rcases List.mem_map.mp hrow with ⟨p, hpmem, rfl⟩
    have hmean : ∀ q ∈ g.map (fun p => rowMaskedMean p.1 p.2), q = x := by
      intro q hq
      rcases List.mem_map.mp hq with ⟨p', hp', rfl⟩
      rcases hx p' hp' with ⟨hc, hsum⟩
      simp [rowMaskedMean, hc, hsum]
    have hsum : (g.map (fun p => rowMaskedMean p.1 p.2)).sum = (n : ℚ) * x := by
      rw [sum_of_constant _ x hmean]
      simp [hg g hgmem]
    rw [hsum, show (n : ℚ) * x / ((n : ℚ) - 1) = x * ((n : ℚ) / ((n : ℚ) - 1)) by
      ring] at hv
    rcases hx p hpmem with ⟨hc, hsump⟩
    exact uniform_row_zero _ x p.1 p.2 hc hsump v hv

/-- The concrete uniform group for the C1 witness: four sequences, each with reward
`1` at its single masked position. -/
def gsC1 : List (List RewardRow) :=
  [[(([1, 0] : List ℚ), [true, false]), (([1, 0] : List ℚ), [true, false]),
    (([1, 0] : List ℚ), [true, false]), (([1, 0] : List ℚ), [true, false])]]

/-- Witness for C1: for one group of four sequences with identical reward `1` at one
masked position, the RLOO-corrected rewards are all zero. -/
theorem C1_rloo_group_transform_witness :
    (2 ≤ 4 ∧ ∀ g ∈ gsC1, g.length = 4)
    ∧ (masked_rloo 4 (gsC1.flatten.map Prod.fst) (gsC1.flatten.map Prod.snd)
          = (gsC1.map (rlooSpecGroup 4)).flatten
       ∧ ∀ g ∈ gsC1, ∀ x : ℚ, uniformSingleReward x g →
          ∀ row ∈ rlooSpecGroup 4 g, ∀ v ∈ row, v = 0)
    ∧ masked_rloo 4 (gsC1.flatten.map Prod.fst) (gsC1.flatten.map Prod.snd)
        = [[0, 0], [0, 0], [0, 0], [0, 0]] := by
  have h := C1_rloo_group_transform 4 (by norm_num) gsC1 (by decide)
  refine ⟨⟨by norm_num, by decide⟩, h, ?_⟩
  rw [h.1]
  norm_num [gsC1, rlooSpecGroup, rlooBaseline, rowMaskedMean, maskedSum, maskedCount]

/-! ## Accuracy group filter (`RayPRIMETrainer.filter`) -/

/-- The slicing `batch.slice(mask)`: keep the rows whose boolean mask entry is `true`. -/
def sliceByMask : List α → List Bool → List α
  | [], _ => []
  | _, [] => []
  | a :: l, b :: m => if b then a :: sliceByMask l m else sliceByMask l m

/-- The method `RayPRIMETrainer.filter`: reshape the per-sequence accuracy into rows of
`n_samples` (`reward_matrix`), take each row's mean (`acc_tensor`), build the
group-level boolean mask `lower_bound <= mean <= upper_bound` (both inclusive),
repeat it `n_samples` times per group (`repeat_interleave`) and slice the batch
with it. -/
def filterAcc (n : ℕ) (lower upper : ℚ) (acc : List ℚ) (batch : List α) : List α :=
  sliceByMask batch
    ((((chunks n acc).map (fun g => g.sum / (n : ℚ))).map
      (fun a => decide (lower ≤ a) && decide (a ≤ upper))).map (List.replicate n)).flatten

/-- The group-level pass/fail predicate as the specification words it: the group's
mean accuracy lies within the configured inclusive `[lower, upper]` range. -/
def groupKeep (n : ℕ) (lower upper : ℚ) (g : List (ℚ × α)) : Bool :=
  decide (lower ≤ (g.map Prod.fst).sum / (n : ℚ))
    && decide ((g.map Prod.fst).sum / (n : ℚ) ≤ upper)

lemma sliceByMask_replicate_true (xs l : List α) (m : List Bool) :
    sliceByMask (xs ++ l) (List.replicate xs.length true ++ m) = xs ++ sliceByMask l m := by
  induction xs with
  | nil => rfl
  | cons a as ih => simp [sliceByMask, ih]

lemma sliceByMask_replicate_false (xs l : List α) (m : List Bool) :
    sliceByMask (xs ++ l) (List.replicate xs.length false ++ m) = sliceByMask l m := by
  induction xs with
  | nil => rfl
  | cons a as ih => simp [sliceByMask, ih]

lemma sliceByMask_grouped (gs : List (List α)) (f : List α → List β) (t : List α → Bool) :
    sliceByMask ((gs.map f).flatten)
        ((gs.map (fun g => List.replicate (f g).length (t g))).flatten)
      = ((gs.filter t).map f).flatten := by
  induction gs with
  | nil => rfl
  | cons g rest ih =>
    simp only [List.flatten_cons, List.map_cons, List.filter_cons]
    cases ht : t g with
    | true => rw [sliceByMask_replicate_true (f g), ih]; simp
    | false => rw [sliceByMask_replicate_false (f g), ih]; simp

/-- C5: when accuracy filtering is enabled, whole contiguous groups of `n_samples`
sequences are kept if and only if the group's mean accuracy lies within the
configured inclusive `[lower, upper]` range: on a batch that is a concatenation of
groups of `n_samples` (accuracy, row) pairs, the filter output is exactly the
concatenation of the groups passing the group-level mean test (never a
per-sequence selection). -/
theorem C5_accuracy_filter_groupwise (n : ℕ) (hn : 1 ≤ n) (lower upper : ℚ)
    (gs : List (List (ℚ × α))) (hg : ∀ g ∈ gs, g.length = n) :
    filterAcc n lower upper (gs.flatten.map Prod.fst) (gs.flatten.map Prod.snd)
      = ((gs.filter (groupKeep n lower upper)).map (fun g => g.map Prod.snd)).flatten := by
  have hacc : chunks n (gs.flatten.map Prod.fst) = gs.map (List.map Prod.fst) := by
    rw [List.map_flatten]
    exact chunks_flatten n hn _
      (by
        intro g' hg'
        rcases List.mem_map.mp hg' with ⟨g, hgmem, rfl⟩
        simpa using hg g hgmem)
  have hbatch : gs.flatten.map Prod.snd = (gs.map (fun g => g.map Prod.snd)).flatten :=
    List.map_flatten ..
  have hmask : (((gs.map (List.map Prod.fst)).map (fun g => g.sum / (n : ℚ))).map
        (fun a => decide (lower ≤ a) && decide (a ≤ upper))).map (List.replicate n)
      = gs.map (fun g => List.replicate (g.map Prod.snd).length
          (groupKeep n lower upper g)) := by
    rw [List.map_map, List.map_map, List.map_map]
    refine List.map_congr_left fun g hgmem => ?_
    have hl : (g.map Prod.snd).length = n := by simpa using hg g hgmem
    rw [hl]
    rfl
  unfold filterAcc
  rw [hacc, hbatch, hmask]
  exact sliceByMask_grouped gs (fun g => g.map Prod.snd) (groupKeep n lower upper)

/-- The concrete batch for the C5 witness: 8 sequences in 2 groups of 4 with group
mean accuracies `0.5` and `1.0` (rows are tagged `0..7`). -/
def gsC5 : List (List (ℚ × ℕ)) :=
  [[(0, 0), (1, 1), (0, 2), (1, 3)], [(1, 4), (1, 5), (1, 6), (1, 7)]]

/-- Witness for C5: with bounds `[0.6, 0.9]`, group means `0.5` and `1.0` both fail
the inclusive range test, so the filter keeps 0 groups and the output has
length 0. -/
theorem C5_accuracy_filter_groupwise_witness :
    (1 ≤ 4 ∧ ∀ g ∈ gsC5, g.length = 4)
    ∧ filterAcc 4 (3/5) (9/10) (gsC5.flatten.map Prod.fst) (gsC5.flatten.map Prod.snd)
        = ((gsC5.filter (groupKeep 4 (3/5) (9/10))).map (fun g => g.map Prod.snd)).flatten
    ∧ filterAcc 4 (3/5) (9/10) (gsC5.flatten.map Prod.fst) (gsC5.flatten.map Prod.snd)
        = [] := by
  have h := C5_accuracy_filter_groupwise 4 (by norm_num) (3/5) (9/10) gsC5 (by decide)
  refine ⟨⟨by norm_num, by decide⟩, h, ?_⟩
  rw [h]
  norm_num [gsC5, groupKeep, List.filter_cons]

/-! ## Pairwise DPO ranking accuracy (`compute_dpo_accuracy`, identical in
`core_algos` and `recipe/prime/prime_core_algos`). -/

/-- The index pairs of the strict upper triangle of a `k × k` matrix in row-major
order (the indices selected by `get_upper_triangle`). -/
def upperPairs (k : ℕ) : List (ℕ × ℕ) :=
  ((List.range k).map (fun i =>
    ((List.range k).filter (fun j => decide (i < j))).map (fun j => (i, j)))).flatten

/-- The helper `get_upper_triangle(tensor_x)`: the pairwise differences `x_i - x_j` over the
strict upper triangle. -/
def pairDiffs (x : List ℚ) : List ℚ :=
  (upperPairs x.length).map (fun p => x.getD p.1 0 - x.getD p.2 0)

/-- One group's contribution to `dpo_acc`: per-sequence masked score sums
(`cur_scores`), then all pairwise accuracy and score differences; if every pairwise
accuracy difference vanishes the metric defaults to `0.5`, otherwise it is the
sign-agreement of score and accuracy differences weighted by absolute accuracy
difference, normalised by the total absolute accuracy difference. -/
def dpoGroupAcc (g : List RewardRow) (accg : List ℚ) : ℚ :=
  if ((pairDiffs accg).map abs).sum = 0 then 1/2
  else (List.zipWith
      (fun sd ad => if (0 < sd ↔ 0 < ad) then |ad| else 0)
      (pairDiffs (g.map (fun p => maskedSum p.1 p.2))) (pairDiffs accg)).sum
    / ((pairDiffs accg).map abs).sum

/-- The per-group `dpo_acc` values over a batch split into contiguous groups of
`n_samples`. -/
def dpoGroupVals (n : ℕ) (scores : List (List ℚ)) (mask : List (List Bool))
    (acc : List ℚ) : List ℚ :=
  List.zipWith dpoGroupAcc (chunks n (List.zipWith Prod.mk scores mask)) (chunks n acc)

/-- The function `compute_dpo_accuracy`: the mean of the per-group `dpo_acc` values. -/
def compute_dpo_accuracy (n : ℕ) (scores : List (List ℚ)) (mask : List (List Bool))
    (acc : List ℚ) : ℚ :=
  (dpoGroupVals n scores mask acc).sum / ((dpoGroupVals n scores mask acc).length : ℚ)

lemma mem_upperPairs (k : ℕ) (p : ℕ × ℕ) (h : p ∈ upperPairs k) :
    p.1 < k ∧ p.2 < k := by
  unfold upperPairs at h
  rcases List.mem_flatten.mp h with ⟨l, hl, hp⟩
  rcases List.mem_map.mp hl with ⟨i, hi, rfl⟩
  rcases List.mem_map.mp hp with ⟨j, hj, rfl⟩
  exact ⟨List.mem_range.mp hi, List.mem_range.mp (List.mem_filter.mp hj).1⟩

lemma pairDiffs_const_zero (x : List ℚ) (c : ℚ) (h : ∀ a ∈ x, a = c) :
    ∀ v ∈ pairDiffs x, v = 0 := by
  intro v hv
  rcases List.mem_map.mp hv with ⟨p, hp, rfl⟩
  obtain ⟨h1, h2⟩ := mem_upperPairs _ p hp
  rw [List.getD_eq_getElem x 0 h1, List.getD_eq_getElem x 0 h2,
    h _ (List.getElem_mem h1), h _ (List.getElem_mem h2), sub_self]

lemma dpoGroupAcc_uniform (g : List RewardRow) (accg : List ℚ) (c : ℚ)
    (h : ∀ a ∈ accg, a = c) : dpoGroupAcc g accg = 1/2 := by
  have habs : ((pairDiffs accg).map abs).sum = 0 := by
    have hz : ∀ v ∈ (pairDiffs accg).map abs, v = 0 := by
      intro v hv
      rcases List.mem_map.mp hv with ⟨w, hw, rfl⟩
      rw [pairDiffs_const_zero accg c h w hw, abs_zero]
    rw [sum_of_constant _ 0 hz, mul_zero]
  unfold dpoGroupAcc
  rw [if_pos habs]

lemma mem_of_mem_chunksF (n : ℕ) :
    ∀ (fuel : ℕ) (l ch : List α), ch ∈ chunksF n fuel l → ∀ a ∈ ch, a ∈ l := by
  intro fuel
  induction fuel with
  | zero =>
    intro l ch h
    simp [chunksF] at h
  | succ f ih =>
    intro l ch h a ha
    cases l with
    | nil => simp [chunksF] at h
    | cons x xs =>
      rcases List.mem_cons.mp h with h' | h'
      · subst h'; exact List.take_subset _ _ ha
      · exact List.drop_subset _ _ (ih _ ch h' a ha)

lemma chunks_ne_nil (n : ℕ) (l : List α) (h : l ≠ []) : chunks n l ≠ [] := by
  cases l with
  | nil => exact absurd rfl h
  | cons a l' => simp [chunks, chunksF]

lemma mem_zipWith (f : α → β → γ) (l1 : List α) (l2 : List β) :
    ∀ c ∈ List.zipWith f l1 l2, ∃ a ∈ l1, ∃ b ∈ l2, c = f a b := by
  induction l1 generalizing l2 with
  | nil =>
    intro c hc
    simp at hc
  | cons x xs ih =>
    cases l2 with
    | nil =>
      intro c hc
      simp at hc
    | cons y ys =>
      intro c hc
      rcases List.mem_cons.mp hc with h | h
      · exact ⟨x, by simp, y, by simp, h⟩
      · rcases ih ys c h with ⟨a, ha, b, hb, rfl⟩
        exact ⟨a, by simp [ha], b, by simp [hb], rfl⟩

/-- C9: the pairwise ranking accuracy metric defaults to exactly `0.5` on any group
whose sequences all carry the same accuracy (all pairwise accuracy differences
zero), and the batch-level `compute_dpo_accuracy` of a batch whose accuracies are
all equal is exactly `0.5` — a defined value, never an undefined division. -/
theorem C9_dpo_acc_uniform_half (n : ℕ) (scores : List (List ℚ))
    (mask : List (List Bool)) (acc : List ℚ) (c : ℚ)
    (hs : scores.length = acc.length) (hm : mask.length = acc.length)
    (hne : acc ≠ []) (hc : ∀ a ∈ acc, a = c) :
    (∀ (g : List RewardRow) (accg : List ℚ), (∀ a ∈ accg, a = c) →
        dpoGroupAcc g accg = 1/2)
    ∧ compute_dpo_accuracy n scores mask acc = 1/2 := by
  refine ⟨fun g accg h => dpoGroupAcc_uniform g accg c h, ?_⟩
  have hval : ∀ v ∈ dpoGroupVals n scores mask acc, v = 1/2 := by
    intro v hv
    rcases mem_zipWith _ _ _ v hv with ⟨gch, _, ach, hach, rfl⟩
    refine dpoGroupAcc_uniform gch ach c fun a ha => ?_
    exact hc a (mem_of_mem_chunksF n acc.length acc ach (by simpa [chunks] using hach) a ha)
  have hzlen : (List.zipWith Prod.mk scores mask).length = acc.length := by
    rw [List.length_zipWith, hs, hm, Nat.min_self]
  have haccpos : 0 < acc.length := List.length_pos.mpr hne
  have h1 : 0 < (chunks n (List.zipWith Prod.mk scores mask)).length := by
    refine List.length_pos.mpr (chunks_ne_nil n _ ?_)
    intro hnil
    rw [hnil] at hzlen
    simp at hzlen
    omega
  have h2 : 0 < (chunks n acc).length := List.length_pos.mpr (chunks_ne_nil n _ hne)
  have hlpos : 0 < (dpoGroupVals n scores mask acc).length := by
    unfold dpoGroupVals
    rw [List.length_zipWith]
    omega
  have hlne : ((dpoGroupVals n scores mask acc).length : ℚ) ≠ 0 := by
    exact_mod_cast hlpos.ne'
  unfold compute_dpo_accuracy
  rw [sum_of_constant _ (1/2) hval, mul_comm, mul_div_assoc, div_self hlne, mul_one]

/-- Witness for C9: a batch of two groups of one sequence each, all accuracies
equal, gives `dpo_acc` exactly `0.5`. -/
theorem C9_dpo_acc_uniform_half_witness :
    (([[(1 : ℚ)], [2]] : List (List ℚ)).length = ([1, 1] : List ℚ).length
      ∧ ([[true], [true]] : List (List Bool)).length = ([1, 1] : List ℚ).length
      ∧ ([1, 1] : List ℚ) ≠ [] ∧ ∀ a ∈ ([1, 1] : List ℚ), a = 1)
    ∧ compute_dpo_accuracy 2 [[1], [2]] [[true], [true]] [1, 1] = 1/2 := by
  have h := C9_dpo_acc_uniform_half 2 [[1], [2]] [[true], [true]] [1, 1] 1
    rfl rfl (by simp) (by simp)
  exact ⟨⟨rfl, rfl, by simp, by simp⟩, h.2⟩

/-! ## Overflow buffer (`RayPRIMETrainer.add_to_buffer`) -/

/-- The per-sequence fields of a rollout batch row relevant to the buffer logic:
the prompt-side generation fields that are selected into the buffer
(`input_ids`, `attention_mask`, `position_ids`) and a response-side field standing
for everything that is dropped. -/
structure BatchRow where
  input_ids : List ℤ
  attention_mask : List ℤ
  position_ids : List ℤ
  responses : List ℤ
  deriving DecidableEq, Repr

instance : Inhabited BatchRow := ⟨⟨[], [], [], []⟩⟩

/-- A prompt-only buffer entry (result of `select(batch_keys=['input_ids',
'attention_mask', 'position_ids'])`). -/
structure PromptRow where
  input_ids : List ℤ
  attention_mask : List ℤ
  position_ids : List ℤ
  deriving DecidableEq, Repr

/-- Drop the response-side fields of a row and truncate the prompt fields to
`max_prompt_length` (`slice_batch(start=0, length=max_prompt_length, dim=1)`). -/
def toPromptRow (maxPromptLength : ℕ) (r : BatchRow) : PromptRow :=
  { input_ids := r.input_ids.take maxPromptLength
    attention_mask := r.attention_mask.take maxPromptLength
    position_ids := r.position_ids.take maxPromptLength }

/-- The method `RayPRIMETrainer.add_to_buffer`: with `buffer_length = len(batch)//n_samples -
batch_size`, the rows at indices `range(batch_size*n_samples,
(buffer_length+batch_size)*n_samples, n_samples)` (one representative per excess
group, carrying the group's prompt) become prompt-only truncated buffer entries,
and the batch is sliced with the mask that is `True` on the first `batch_size`
groups and `False` on the rest, repeated `n_samples` times per group. Returns
`(kept batch, buffer entries)`. -/
def add_to_buffer (batch : List BatchRow) (batch_size n_samples maxPromptLength : ℕ) :
    List BatchRow × List PromptRow :=
  let buffer_length := batch.length / n_samples - batch_size
  let buffer_batch :=
    ((List.range buffer_length).filterMap
      (fun i => batch.get? (batch_size * n_samples + i * n_samples))).map
      (toPromptRow maxPromptLength)
  let buffer_mask :=
    (((List.range (buffer_length + batch_size)).map (fun i => decide (i < batch_size))).map
      (List.replicate n_samples)).flatten
  (sliceByMask batch buffer_mask, buffer_batch)

lemma flatten_map_const_replicate (l : List α) (n : ℕ) (c : β) :
    (l.map (fun _ => List.replicate n c)).flatten = List.replicate (l.length * n) c := by
  induction l with
  | nil => simp
  | cons x xs ih =>
    simp only [List.map_cons, List.flatten_cons, ih, List.length_cons]
    rw [← List.replicate_add]
    congr 1
    ring

lemma bufferMask_eq (bs k n : ℕ) :
    (((List.range (k + bs)).map (fun i => decide (i < bs))).map (List.replicate n)).flatten
      = List.replicate (bs * n) true ++ List.replicate (k * n) false := by
  rw [Nat.add_comm k bs, List.range_add]
  simp only [List.map_append, List.map_map, List.flatten_append]
  congr 1
  · rw [List.map_congr_left (g := fun _ => List.replicate n true)
      (fun i hi => by simp [Function.comp, List.mem_range.mp hi]),
      flatten_map_const_replicate, List.length_range]
  · rw [List.map_congr_left (g := fun _ => List.replicate n false)
      (fun i hi => by
        have : ¬ (bs + i < bs) := by omega
        simp [Function.comp, this]),
      flatten_map_const_replicate, List.length_range]

lemma sliceByMask_take (l : List α) (a b : ℕ) (hl : l.length = a + b) :
    sliceByMask l (List.replicate a true ++ List.replicate b false) = l.take a := by
  have hta : (l.take a).length = a := by rw [List.length_take]; omega
  have hdb : (l.drop a).length = b := by rw [List.length_drop]; omega
  conv_lhs => rw [← List.take_append_drop a l]
  rw [show List.replicate a true = List.replicate (l.take a).length true by rw [hta],
    sliceByMask_replicate_true,
    show List.replicate b false = List.replicate (l.drop a).length false by rw [hdb]]
  have h0 : sliceByMask (l.drop a) (List.replicate (l.drop a).length false) = [] := by
    have h := sliceByMask_replicate_false (l.drop a) [] []
    simpa using h
  rw [h0, List.append_nil]

lemma filterMap_range_all_some (f : ℕ → Option α) (h : ℕ → α) (k : ℕ)
    (hf : ∀ i < k, f i = some (h i)) :
    (List.range k).filterMap f = (List.range k).map h := by
  induction k with
  | zero => simp
  | succ m ih =>
    rw [List.range_succ]
    simp [List.filterMap_append, ih (fun i hi => hf i (by omega)), hf m (by omega)]

/-- C2: on a batch of `g` contiguous groups of `n_samples` rows with
`g > batch_size`, `add_to_buffer` keeps exactly the first `batch_size` groups
(prefix of the batch: target size, deterministic order, group contiguity
preserved) and moves every excess complete group to the buffer as one prompt-only
entry per group (the group's generation fields, truncated to the maximum prompt
length) — `g - batch_size` buffered groups in original order. -/
theorem C2_add_to_buffer_split (batch : List BatchRow) (batch_size n_samples L g : ℕ)
    (hn : 1 ≤ n_samples) (hlen : batch.length = g * n_samples)
    (hover : batch_size < g) :
    (add_to_buffer batch batch_size n_samples L).1 = batch.take (batch_size * n_samples)
    ∧ (add_to_buffer batch batch_size n_samples L).1.length = batch_size * n_samples
    ∧ (add_to_buffer batch batch_size n_samples L).2
        = (List.range (g - batch_size)).map
            (fun i => toPromptRow L (batch.getD (batch_size * n_samples + i * n_samples) default))
    ∧ (add_to_buffer batch batch_size n_samples L).2.length = g - batch_size := by
  have hn0 : 0 < n_samples := hn
  have hbl : batch.length / n_samples - batch_size = g - batch_size := by
    rw [hlen, Nat.mul_div_cancel g hn0]
  have hkept : (add_to_buffer batch batch_size n_samples L).1
      = batch.take (batch_size * n_samples) := by
    simp only [add_to_buffer, hbl]
    rw [bufferMask_eq, sliceByMask_take]
    rw [hlen, ← Nat.add_mul]
    congr 1
    omega
  have hbuf : (add_to_buffer batch batch_size n_samples L).2
      = (List.range (g - batch_size)).map
          (fun i => toPromptRow L (batch.getD (batch_size * n_samples + i * n_samples) default)) := by
    have hf : ∀ i < g - batch_size,
        batch.get? (batch_size * n_samples + i * n_samples)
          = some (batch.getD (batch_size * n_samples + i * n_samples) default) := by
      intro i hi
      have hidx : batch_size * n_samples + i * n_samples < batch.length := by
        rw [hlen, ← Nat.add_mul]
        exact Nat.mul_lt_mul_of_lt_of_le (by omega) (le_refl n_samples) hn0
      rw [List.get?_eq_getElem?, List.getElem?_eq_getElem hidx,
        List.getD_eq_getElem batch default hidx]
    simp only [add_to_buffer, hbl]
    rw [filterMap_range_all_some _
      (fun i => batch.getD (batch_size * n_samples + i * n_samples) default) _ hf,
      List.map_map]
    rfl
  refine ⟨hkept, ?_, hbuf, ?_⟩
  · rw [hkept, List.length_take, hlen]
    have : batch_size * n_samples ≤ g * n_samples :=
      Nat.mul_le_mul_right n_samples (Nat.le_of_lt hover)
    omega
  · rw [hbuf, List.length_map, List.length_range]

/-- The concrete batch for the C2 witness: 12 rows (3 groups of 4), each row tagged
by its index in `input_ids`. -/
def batchC2 : List BatchRow :=
  (List.range 12).map (fun i => ⟨[(i : ℤ)], [1], [0], [(100 + i : ℤ)]⟩)

/-- Witness for C2: 12 valid sequences with `n_samples = 4` and target
`batch_size * n_samples = 8`: exactly 1 excess group is moved to the buffer (as the
group's prompt-only entry) and the returned batch is exactly the first 8 rows. -/
theorem C2_add_to_buffer_split_witness :
    (1 ≤ 4 ∧ batchC2.length = 3 * 4 ∧ 2 < 3)
    ∧ ((add_to_buffer batchC2 2 4 1).1 = batchC2.take (2 * 4)
      ∧ (add_to_buffer batchC2 2 4 1).1.length = 2 * 4
      ∧ (add_to_buffer batchC2 2 4 1).2
          = (List.range (3 - 2)).map
              (fun i => toPromptRow 1 (batchC2.getD (2 * 4 + i * 4) default))
      ∧ (add_to_buffer batchC2 2 4 1).2.length = 3 - 2)
    ∧ (add_to_buffer batchC2 2 4 1).2 = [⟨[8], [1], [0]⟩] :=
  ⟨⟨by decide, by decide, by decide⟩,
   C2_add_to_buffer_split batchC2 2 4 1 3 (by decide) (by decide) (by decide),
   by decide⟩

/-! ## KL penalty (`core_algos.kl_penalty`) and its application
(`ray_trainer.apply_kl_penalty`). -/

/-- The function `core_algos.kl_penalty`: the elementwise divergence of one of the three
implemented kinds (`"kl"` identity difference, `"abs"` absolute difference,
`"mse"` half squared difference); the declared `"full"` distribution kind and any
other name raise `NotImplementedError`, modelled as `Except.error ()`. -/
def kl_penalty_fn (logprob ref_logprob : List (List ℚ)) (kind : String) :
    Except Unit (List (List ℚ)) :=
  if kind = "kl" then
    .ok (List.zipWith (fun l r => List.zipWith (fun a b => a - b) l r) logprob ref_logprob)
  else if kind = "abs" then
    .ok (List.zipWith (fun l r => List.zipWith (fun a b => |a - b|) l r) logprob ref_logprob)
  else if kind = "mse" then
    .ok (List.zipWith (fun l r => List.zipWith (fun a b => 1/2 * (a - b)^2) l r)
      logprob ref_logprob)
  else if kind = "full" then
    .error ()
  else
    .error ()

/-- The KL controller passed around by the trainer: fixed or adaptive. -/
inductive KLController
  | fixed : FixedKLController → KLController
  | adaptive : AdaptiveKLController → KLController
  deriving DecidableEq, Repr

/-- The controller's current coefficient. -/
def KLController.value : KLController → ℚ
  | .fixed c => c.value
  | .adaptive c => c.value

/-- Dispatch `update` to the underlying controller. -/
def KLController.update : KLController → ℚ → ℕ → KLController
  | .fixed c, kl, n => .fixed (c.update kl n)
  | .adaptive c, kl, n => .adaptive (c.update kl n)

/-- The batch fields read by `apply_kl_penalty`: the combined scores, the policy
log-probs, the optional reference log-probs and the response mask. -/
structure KlBatch where
  token_level_scores : List (List ℚ)
  old_log_probs : List (List ℚ)
  ref_log_prob : Option (List (List ℚ))
  response_mask : List (List Bool)

/-- The outputs of `apply_kl_penalty`: the token-level rewards written into the
batch, the coefficient used, the masked KL tensor, the step's mean KL and the
updated controller. -/
structure ApplyKlResult where
  token_level_rewards : List (List ℚ)
  beta : ℚ
  kld : List (List ℚ)
  current_kl : ℚ
  newCtrl : KLController

/-- The part of `apply_kl_penalty` shared by both branches:
`token_level_rewards = token_level_scores - beta * kld`; `current_kl` is the
batch mean of the per-sequence masked mean KL (`masked_mean(kld, response_mask,
axis=-1)` then `mean(dim=0)`, modelled from the spec since
`verl.utils.torch_functional.masked_mean` is not among the files under study:
masked sum divided by masked count); the controller is updated with `current_kl`
and `n_steps = batch_size`. -/
def applyKlCore (scores kld : List (List ℚ)) (mask : List (List Bool)) (beta : ℚ)
    (kl_ctrl : KLController) : ApplyKlResult :=
  { token_level_rewards :=
      List.zipWith (fun s k => List.zipWith (fun x y => x - beta * y) s k) scores kld
    beta := beta
    kld := kld
    current_kl := (List.zipWith rowMaskedMean kld mask).sum / (scores.length : ℚ)
    newCtrl := kl_ctrl.update
      ((List.zipWith rowMaskedMean kld mask).sum / (scores.length : ℚ)) scores.length }

/-- The function `ray_trainer.apply_kl_penalty`: if `ref_log_prob` is present, `kld =
kl_penalty(old_log_probs, ref_log_prob) * response_mask` and `beta` is the
controller's coefficient; otherwise `beta = 0` and `kld` is an all-zero tensor. -/
def apply_kl_penalty (b : KlBatch) (kl_ctrl : KLController) (kind : String) :
    Except Unit ApplyKlResult :=
  match b.ref_log_prob with
  | some ref =>
    (kl_penalty_fn b.old_log_probs ref kind).map (fun kld_raw =>
      applyKlCore b.token_level_scores
        (List.zipWith maskedZero kld_raw b.response_mask) b.response_mask
        kl_ctrl.value kl_ctrl)
  | none =>
    .ok (applyKlCore b.token_level_scores
      (b.response_mask.map (fun m => m.map (fun _ => (0 : ℚ)))) b.response_mask 0 kl_ctrl)

/-- C7: the KL penalty function computes exactly three implemented divergences —
identity difference for `"kl"`, absolute difference for `"abs"`, half squared
difference for `"mse"` — and fails with not-implemented for the declared `"full"`
variant and for every other name; when a reference policy is present the applied
reward is `token_level_rewards = token_level_scores - beta * kld` with `beta` read
from the KL controller's state. -/
theorem C7_kl_penalty_kinds :
    (∀ lp rp : List (List ℚ),
      kl_penalty_fn lp rp "kl"
          = .ok (List.zipWith (fun l r => List.zipWith (fun a b => a - b) l r) lp rp)
        ∧ kl_penalty_fn lp rp "abs"
          = .ok (List.zipWith (fun l r => List.zipWith (fun a b => |a - b|) l r) lp rp)
        ∧ kl_penalty_fn lp rp "mse"
          = .ok (List.zipWith (fun l r => List.zipWith (fun a b => 1/2 * (a - b)^2) l r) lp rp)
        ∧ kl_penalty_fn lp rp "full" = .error ()
        ∧ ∀ kind : String, kind ≠ "kl" → kind ≠ "abs" → kind ≠ "mse" →
            kl_penalty_fn lp rp kind = .error ())
    ∧ (∀ (b : KlBatch) (ctrl : KLController) (ref kld_raw : List (List ℚ)) (kind : String),
        b.ref_log_prob = some ref →
        kl_penalty_fn b.old_log_probs ref kind = .ok kld_raw →
        apply_kl_penalty b ctrl kind
          = .ok (applyKlCore b.token_level_scores
              (List.zipWith maskedZero kld_raw b.response_mask) b.response_mask
              ctrl.value ctrl))
    ∧ (∀ (scores kld : List (List ℚ)) (mask : List (List Bool)) (beta : ℚ)
        (ctrl : KLController) (i j : ℕ),
        i < scores.length → i < kld.length →
        j < (scores.getD i []).length → j < (kld.getD i []).length →
        ((applyKlCore scores kld mask beta ctrl).token_level_rewards.getD i []).getD j 0
          = (scores.getD i []).getD j 0 - beta * (kld.getD i []).getD j 0) := by
  refine ⟨fun lp rp => ⟨rfl, rfl, rfl, rfl, ?_⟩, ?_, ?_⟩
  · intro kind h1 h2 h3
    unfold kl_penalty_fn
    rw [if_neg h1, if_neg h2, if_neg h3]
    by_cases h4 : kind = "full"
    · rw [if_pos h4]
    · rw [if_neg h4]
  · intro b ctrl ref kld_raw kind href hok
    unfold apply_kl_penalty
    rw [href]
    show (kl_penalty_fn b.old_log_probs ref kind).map (fun kld_raw =>
        applyKlCore b.token_level_scores
          (List.zipWith maskedZero kld_raw b.response_mask) b.response_mask
          ctrl.value ctrl) = _
    rw [hok]
    rfl
  · intro scores kld mask beta ctrl i j hi1 hi2 hj1 hj2
    rw [List.getD_eq_getElem scores [] hi1] at hj1
    rw [List.getD_eq_getElem kld [] hi2] at hj2
    have hlen : i < (List.zipWith
        (fun s k => List.zipWith (fun x y => x - beta * y) s k) scores kld).length := by
      rw [List.length_zipWith]
      omega
    show ((List.zipWith (fun s k => List.zipWith (fun x y => x - beta * y) s k)
        scores kld).getD i []).getD j 0 = _
    rw [List.getD_eq_getElem _ [] hlen, List.getElem_zipWith]
    have hj : j < (List.zipWith (fun x y => x - beta * y) scores[i] kld[i]).length := by
      rw [List.length_zipWith]
      omega
    rw [List.getD_eq_getElem _ 0 hj, List.getElem_zipWith,
      List.getD_eq_getElem scores [] hi1, List.getD_eq_getElem kld [] hi2,
      List.getD_eq_getElem _ 0 hj1, List.getD_eq_getElem _ 0 hj2]

/-- The concrete batch for the C7 witness. -/
def bC7 : KlBatch :=
  { token_level_scores := [[3]]
    old_log_probs := [[2]]
    ref_log_prob := some [[1]]
    response_mask := [[true]] }

/-- Witness for C7 at a one-token batch: the `"kl"` divergence of log-probs `2`
and `1` is `1`, the applied reward is `3 - beta * 1` with `beta = 5` read from the
controller. -/
theorem C7_kl_penalty_kinds_witness :
    (bC7.ref_log_prob = some [[1]]
      ∧ kl_penalty_fn bC7.old_log_probs [[1]] "kl" = .ok [[1]]
      ∧ (0 : ℕ) < ([[ (3 : ℚ) ]]).length)
    ∧ apply_kl_penalty bC7 (KLController.fixed ⟨5⟩) "kl"
        = .ok (applyKlCore bC7.token_level_scores
            (List.zipWith maskedZero [[1]] bC7.response_mask) bC7.response_mask
            (KLController.fixed ⟨5⟩).value (KLController.fixed ⟨5⟩))
    ∧ ((applyKlCore [[3]] [[1]] [[true]] 5 (KLController.fixed ⟨5⟩)).token_level_rewards.getD
        0 []).getD 0 0 = ([[ (3 : ℚ) ]].getD 0 []).getD 0 0
          - 5 * (([[ (1 : ℚ) ]].getD 0 []).getD 0 0) := by
  have hok : kl_penalty_fn bC7.old_log_probs [[1]] "kl" = .ok [[1]] := by
    norm_num [kl_penalty_fn, bC7]
  refine ⟨⟨rfl, hok, by norm_num⟩, ?_, ?_⟩
  · exact C7_kl_penalty_kinds.2.1 bC7 (KLController.fixed ⟨5⟩) [[1]] [[1]] "kl" rfl hok
  · exact C7_kl_penalty_kinds.2.2 [[3]] [[1]] [[true]] 5 (KLController.fixed ⟨5⟩) 0 0
      (by norm_num) (by norm_num) (by norm_num) (by norm_num)

lemma zipWith_sub_zero_self (s k : List ℚ) (h : s.length ≤ k.length) :
    List.zipWith (fun x y => x - (0 : ℚ) * y) s k = s := by
  induction s generalizing k with
  | nil => rfl
  | cons a as ih =>
    cases k with
    | nil => simp at h
    | cons b bs =>
      show (a - 0 * b) :: List.zipWith (fun x y => x - (0 : ℚ) * y) as bs = a :: as
      rw [ih bs (by simpa using h)]
      simp

lemma rewards_passthrough (scores : List (List ℚ)) (mask : List (List Bool))
    (hlen : mask.length = scores.length)
    (hrow : ∀ pr ∈ List.zip scores mask, pr.1.length = pr.2.length) :
    List.zipWith (fun s k => List.zipWith (fun x y => x - (0 : ℚ) * y) s k)
      scores (mask.map (fun m => m.map (fun _ => (0 : ℚ)))) = scores := by
  induction scores generalizing mask with
  | nil => simp
  | cons s ss ih =>
    cases mask with
    | nil => simp at hlen
    | cons m ms =>
      simp only [List.map_cons, List.zipWith_cons_cons]
      have h1 : s.length = m.length := hrow (s, m) (by simp)
      congr 1
      · exact zipWith_sub_zero_self s _ (by simp [h1])
      · exact ih ms (by simpa using hlen) (fun pr hpr => hrow pr (by simp [hpr]))

lemma maskedSum_zero_row (r : List ℚ) (m : List Bool) (h : ∀ x ∈ r, x = 0) :
    maskedSum r m = 0 := by
  induction r generalizing m with
  | nil => cases m <;> rfl
  | cons x xs ih =>
    cases m with
    | nil => rfl
    | cons b bs =>
      have hx : x = 0 := h x (by simp)
      have hxs := ih bs (fun y hy => h y (by simp [hy]))
      cases b <;> simp [maskedSum, hx, hxs]

/-- C10: when the batch carries no `ref_log_prob` field, `apply_kl_penalty` uses
`beta = 0` and an all-zero KL tensor, the produced `token_level_rewards` equal
`token_level_scores` exactly, and the KL controller is updated with
`current_kl = 0` and `n_steps` equal to the batch size. -/
theorem C10_no_ref_passthrough (b : KlBatch) (ctrl : KLController) (kind : String)
    (href : b.ref_log_prob = none)
    (hlen : b.response_mask.length = b.token_level_scores.length)
    (hrow : ∀ pr ∈ List.zip b.token_level_scores b.response_mask,
        pr.1.length = pr.2.length) :
    ∃ r : ApplyKlResult, apply_kl_penalty b ctrl kind = .ok r
      ∧ r.beta = 0
      ∧ (∀ row ∈ r.kld, ∀ v ∈ row, v = 0)
      ∧ r.token_level_rewards = b.token_level_scores
      ∧ r.current_kl = 0
      ∧ r.newCtrl = ctrl.update 0 b.token_level_scores.length := by
  have happ : apply_kl_penalty b ctrl kind
      = .ok (applyKlCore b.token_level_scores
          (b.response_mask.map (fun m => m.map (fun _ => (0 : ℚ)))) b.response_mask
          0 ctrl) := by
    unfold apply_kl_penalty
    rw [href]
  have hckl : (List.zipWith rowMaskedMean
      (b.response_mask.map (fun m => m.map (fun _ => (0 : ℚ)))) b.response_mask).sum
        / (b.token_level_scores.length : ℚ) = 0 := by
    have hz : ∀ v ∈ List.zipWith rowMaskedMean
        (b.response_mask.map (fun m => m.map (fun _ => (0 : ℚ)))) b.response_mask, v = 0 := by
      intro v hv
      rcases mem_zipWith _ _ _ v hv with ⟨a, ha, m, _, rfl⟩
      rcases List.mem_map.mp ha with ⟨m', _, rfl⟩
      have hms : maskedSum (m'.map (fun _ => (0 : ℚ))) m = 0 :=
        maskedSum_zero_row _ m (fun x hx => by
          rcases List.mem_map.mp hx with ⟨_, _, rfl⟩
          rfl)
      show maskedSum (m'.map (fun _ => (0 : ℚ))) m / (maskedCount m : ℚ) = 0
      rw [hms, zero_div]
    rw [sum_of_constant _ 0 hz, mul_zero, zero_div]
  refine ⟨_, happ, rfl, ?_, ?_, hckl, ?_⟩
  · intro row hrowm v hv
    simp only [applyKlCore] at hrowm
    rcases List.mem_map.mp hrowm with ⟨m, _, rfl⟩
    rcases List.mem_map.mp hv with ⟨_, _, rfl⟩
    rfl
  · exact rewards_passthrough b.token_level_scores b.response_mask hlen hrow
  · show ctrl.update _ _ = ctrl.update 0 b.token_level_scores.length
    rw [hckl]

/-- The concrete batch for the C10 witness: no reference log-probs configured. -/
def bC10 : KlBatch :=
  { token_level_scores := [[3, 7], [2, 4]]
    old_log_probs := [[1, 1], [1, 1]]
    ref_log_prob := none
    response_mask := [[true, false], [true, true]] }

/-- Witness for C10: with no `ref_log_prob`, the rewards pass through unchanged and
the controller sees `current_kl = 0`. -/
theorem C10_no_ref_passthrough_witness :
    (bC10.ref_log_prob = none
      ∧ bC10.response_mask.length = bC10.token_level_scores.length
      ∧ ∀ pr ∈ List.zip bC10.token_level_scores bC10.response_mask,
          pr.1.length = pr.2.length)
    ∧ ∃ r : ApplyKlResult, apply_kl_penalty bC10 (KLController.fixed ⟨5⟩) "kl" = .ok r
      ∧ r.beta = 0
      ∧ (∀ row ∈ r.kld, ∀ v ∈ row, v = 0)
      ∧ r.token_level_rewards = bC10.token_level_scores
      ∧ r.current_kl = 0
      ∧ r.newCtrl = (KLController.fixed ⟨5⟩).update 0 bC10.token_level_scores.length :=
  ⟨⟨rfl, rfl, by decide⟩,
   C10_no_ref_passthrough bC10 (KLController.fixed ⟨5⟩) "kl" rfl rfl (by decide)⟩

/-! ## Collection loop and data exhaustion (`RayPRIMETrainer.fit`) -/

/-- The outcome of one pass of the trainer loop after the collection sub-loop:
either the partial epoch is abandoned (the `break` on an under-target batch — no
scoring, advantage or update step runs) or the pipeline proceeds on the collected
batch. -/
inductive StepOutcome (α : Type _)
  | abandoned : StepOutcome α
  | run : List α → StepOutcome α
  deriving DecidableEq, Repr

/-- The `while len(valid_batch) < batch_size * n_samples` collection sub-loop:
check the target first; `get_next_batch` raising `StopIteration` (the source list
being empty) breaks out of the sub-loop; otherwise the next batch of valid rows is
appended. Returns the collected rows and the unconsumed remainder of the source. -/
def collectLoop (target : ℕ) : List (List α) → List α → List α × List (List α)
  | [], acc => (acc, [])
  | b :: rest, acc =>
    if target ≤ acc.length then (acc, b :: rest)
    else collectLoop target rest (acc ++ b)

/-- The decision after the collection sub-loop (`if len(valid_batch) <
batch_size*n_samples: break`): strictly under target abandons the epoch with a
normal break; otherwise the step runs on the collected batch. -/
def fitStep (target : ℕ) (source : List (List α)) : StepOutcome α × List (List α) :=
  let res := collectLoop target source []
  if res.1.length < target then (StepOutcome.abandoned, res.2)
  else (StepOutcome.run res.1, res.2)

lemma collectLoop_spec (target : ℕ) :
    ∀ (source : List (List α)) (acc : List α),
      (acc.length + (source.map List.length).sum < target →
        collectLoop target source acc = (acc ++ source.flatten, []))
      ∧ (target ≤ acc.length + (source.map List.length).sum →
        target ≤ (collectLoop target source acc).1.length) := by
  intro source
  induction source with
  | nil =>
    intro acc
    refine ⟨fun _ => by simp [collectLoop], fun h => ?_⟩
    simp only [List.map_nil, List.sum_nil, Nat.add_zero] at h
    simpa [collectLoop] using h
  | cons b rest ih =>
    intro acc
    constructor
    · intro h
      simp only [List.map_cons, List.sum_cons] at h
      have hlt : ¬ target ≤ acc.length := by omega
      show (if target ≤ acc.length then (acc, b :: rest)
          else collectLoop target rest (acc ++ b)) = _
      rw [if_neg hlt, (ih (acc ++ b)).1 (by simp [List.length_append]; omega)]
      simp [List.flatten_cons, List.append_assoc]
    · intro h
      simp only [List.map_cons, List.sum_cons] at h
      show target ≤ (if target ≤ acc.length then (acc, b :: rest)
          else collectLoop target rest (acc ++ b)).1.length
      by_cases hle : target ≤ acc.length
      · rw [if_pos hle]; exact hle
      · rw [if_neg hle]
        exact (ih (acc ++ b)).2 (by simp [List.length_append]; omega)

/-- C8: the outcome of a collection pass is the abandoning `break` exactly when the
data source runs out before the target is reached — the total number of available
valid sequences is strictly below `batch_size * n_samples`; in that case the source
is fully drained and the result is the plain `abandoned` value (a normal
control-flow outcome carrying no batch: no scoring, advantage or update step runs,
and no error is raised). -/
theorem C8_partial_epoch_abandoned (target : ℕ) (source : List (List α)) :
    ((fitStep target source).1 = StepOutcome.abandoned
      ↔ (source.map List.length).sum < target)
    ∧ ((source.map List.length).sum < target →
        fitStep target source = (StepOutcome.abandoned, [])) := by
  have hfull : (source.map List.length).sum < target →
      fitStep target source = (StepOutcome.abandoned, []) := by
    intro h
    have hc := (collectLoop_spec target source []).1 (by simpa using h)
    unfold fitStep
    rw [hc]
    have : (([] : List α) ++ source.flatten).length < target := by
      simpa [List.length_flatten] using h
    rw [if_pos this]
  refine ⟨⟨fun hab => ?_, fun h => by rw [(hfull h)]⟩, hfull⟩
  by_contra hge
  push_neg at hge
  have hc := (collectLoop_spec target source []).2 (by simpa using hge)
  unfold fitStep at hab
  rw [if_neg (by omega)] at hab
  exact StepOutcome.noConfusion hab

/-- Witness for C8: a source holding only 4 valid sequences against a target of 8
drains fully and yields the `abandoned` outcome. -/
theorem C8_partial_epoch_abandoned_witness :
    ((([[0, 1, 2], [3]] : List (List ℕ)).map List.length).sum < 8)
    ∧ fitStep 8 ([[0, 1, 2], [3]] : List (List ℕ)) = (StepOutcome.abandoned, []) :=
  ⟨by decide,
   (C8_partial_epoch_abandoned 8 [[0, 1, 2], [3]]).2 (by decide)⟩

/-! ## GAE over an implicit process-reward value
(`core_algos.compute_gae_value_returns`) -/

/-- The per-sequence inputs of `compute_gae_value_returns`: the `gt_scores` row
(`token_level_rewards`), the `rm_scores` row (`q`, the implicit `beta * logprob`
value), and the valid response length computed from the attention mask. -/
structure GaeValueRow where
  gt : List ℚ
  rm : List ℚ
  validLen : ℕ

/-- The value construction of `compute_gae_value_returns`: clone `rm_scores` into
`q`; when `prime_use_gt` is set, overwrite `q` at the last valid-response position
with the ground-truth entry there minus the sum of the values before it; then zero
every position from the valid length on. -/
def gaeValueQRow (use_gt : Bool) (gt q : List ℚ) (vl : ℕ) : List ℚ :=
  let q1 := if use_gt then q.set (vl - 1) (gt.getD (vl - 1) 0 - (q.take (vl - 1)).sum)
    else q
  q1.take vl ++ List.replicate (q1.length - vl) 0

/-- The backward recurrence of `compute_gae_value_returns` with `gamma` fixed to
`1`: `delta = q_t`, `lastgaelam = delta + lam * lastgaelam`. -/
def gaeValueAdvRow (lam : ℚ) : List ℚ → List ℚ
  | [] => []
  | x :: xs =>
    let rest := gaeValueAdvRow lam xs
    (x + lam * rest.headD 0) :: rest

/-- The returns `returns = torch.zeros_like(token_level_rewards) +
token_level_rewards.sum(dim=-1, keepdim=True)`: every position of the row holds the
row sum of `gt_scores`. -/
def gaeValueReturnsRow (gt : List ℚ) : List ℚ :=
  List.replicate gt.length gt.sum

/-- The function `compute_gae_value_returns` on a batch: pre-whitening advantages and returns.
The `gamma` argument is accepted and ignored — the recurrence always runs with
`gamma = 1` (the final step of the source whitens the advantages with
`masked_whiten`, outside the files under study). -/
def compute_gae_value_returns (use_gt : Bool) (lam _gamma : ℚ)
    (rows : List GaeValueRow) : List (List ℚ) × List (List ℚ) :=
  (rows.map (fun r => gaeValueAdvRow lam (gaeValueQRow use_gt r.gt r.rm r.validLen)),
   rows.map (fun r => gaeValueReturnsRow r.gt))

lemma headD_eq_getD (l : List ℚ) (d : ℚ) : l.headD d = l.getD 0 d := by
  cases l <;> rfl

lemma gaeValueAdvRow_rec (lam : ℚ) (l : List ℚ) :
    ∀ t < l.length, (gaeValueAdvRow lam l).getD t 0
      = l.getD t 0 + lam * (gaeValueAdvRow lam l).getD (t + 1) 0 := by
  induction l with
  | nil =>
    intro t ht
    simp at ht
  | cons x xs ih =>
    intro t ht
    cases t with
    | zero =>
      simp only [gaeValueAdvRow, List.getD_cons_zero, List.getD_cons_succ]
      rw [headD_eq_getD]
    | succ s =>
      simp only [gaeValueAdvRow, List.getD_cons_succ]
      exact ih s (by simpa using ht)

lemma sum_eq_zero_of_getD_zero (l : List ℚ) (h : ∀ t < l.length, l.getD t 0 = 0) :
    l.sum = 0 := by
  induction l with
  | nil => simp
  | cons x xs ih =>
    have hx : x = 0 := by simpa using h 0 (by simp)
    have hxs := ih (fun t ht => by simpa using h (t + 1) (by simpa using ht))
    simp [hx, hxs]

lemma sum_eq_getD_of_zeros (l : List ℚ) (k : ℕ) (hk : k < l.length)
    (h0 : ∀ t < l.length, t ≠ k → l.getD t 0 = 0) : l.sum = l.getD k 0 := by
  induction l generalizing k with
  | nil => simp at hk
  | cons x xs ih =>
    cases k with
    | zero =>
      have hxs : xs.sum = 0 := by
        refine sum_eq_zero_of_getD_zero xs fun t ht => ?_
        have := h0 (t + 1) (by simpa using ht) (by omega)
        simpa using this
      simp [hxs]
    | succ s =>
      have hx : x = 0 := by simpa using h0 0 (by simp) (by omega)
      have hsum : xs.sum = xs.getD s 0 := by
        refine ih s (by simpa using hk) fun t ht hne => ?_
        have := h0 (t + 1) (by simpa using ht) (by omega)
        simpa using this
      simp [hx, hsum]

/-- C3: the `gae_value` estimator overwrites the implicit value (`rm_scores`) at
the last valid-response position with the ground-truth entry minus the sum of the
values before it (when `prime_use_gt` is set), zeroes all positions beyond the
valid length and keeps the earlier values, runs the backward recurrence
`A_t = v_t + lam * A_{t+1}` with `gamma` fixed to `1` (the `gamma` argument is
ignored), and — when the ground-truth row carries its reward at the last valid
position only — produces a returns tensor equal to that constant ground-truth
reward at every valid position; the advantage is then whitened. -/
theorem C3_gae_value_estimator (gt q : List ℚ) (vl : ℕ) (lam : ℚ)
    (hlen : q.length = gt.length) (hvl1 : 1 ≤ vl) (hvl2 : vl ≤ gt.length) :
    ((gaeValueQRow true gt q vl).getD (vl - 1) 0
        = gt.getD (vl - 1) 0 - (q.take (vl - 1)).sum)
    ∧ (∀ t, vl ≤ t → (gaeValueQRow true gt q vl).getD t 0 = 0)
    ∧ (∀ t, t < vl - 1 → (gaeValueQRow true gt q vl).getD t 0 = q.getD t 0)
    ∧ (∀ t < (gaeValueQRow true gt q vl).length,
        (gaeValueAdvRow lam (gaeValueQRow true gt q vl)).getD t 0
          = (gaeValueQRow true gt q vl).getD t 0
            + lam * (gaeValueAdvRow lam (gaeValueQRow true gt q vl)).getD (t + 1) 0)
    ∧ ((∀ t < gt.length, t ≠ vl - 1 → gt.getD t 0 = 0) →
        ∀ t < vl, (gaeValueReturnsRow gt).getD t 0 = gt.getD (vl - 1) 0)
    ∧ (∀ (use_gt : Bool) (γ γ' : ℚ) (rows : List GaeValueRow),
        compute_gae_value_returns use_gt lam γ rows
          = compute_gae_value_returns use_gt lam γ' rows) := by
  have hvlq : vl ≤ q.length := by omega
  have hq' : gaeValueQRow true gt q vl
      = (q.set (vl - 1) (gt.getD (vl - 1) 0 - (q.take (vl - 1)).sum)).take vl
        ++ List.replicate
            ((q.set (vl - 1) (gt.getD (vl - 1) 0 - (q.take (vl - 1)).sum)).length - vl) 0 :=
    rfl
  have hq1len : (q.set (vl - 1) (gt.getD (vl - 1) 0 - (q.take (vl - 1)).sum)).length
      = q.length := List.length_set ..
  have htake : ((q.set (vl - 1) (gt.getD (vl - 1) 0 - (q.take (vl - 1)).sum)).take vl).length
      = vl := by
    rw [List.length_take, hq1len]
    omega
  refine ⟨?_, ?_, ?_, gaeValueAdvRow_rec lam _, ?_, fun _ _ _ _ => rfl⟩
  · rw [hq', List.getD_append _ _ _ _ (by omega)]
    have hlt : vl - 1
        < ((q.set (vl - 1) (gt.getD (vl - 1) 0 - (q.take (vl - 1)).sum)).take vl).length := by
      omega
    rw [List.getD_eq_getElem _ _ hlt, List.getElem_take, List.getElem_set_self _]
  · intro t ht
    rw [hq']
    by_cases hbig : t < q.length
    · have hl : t < ((q.set (vl - 1) (gt.getD (vl - 1) 0 - (q.take (vl - 1)).sum)).take vl
          ++ List.replicate
            ((q.set (vl - 1) (gt.getD (vl - 1) 0 - (q.take (vl - 1)).sum)).length - vl)
            0).length := by
        rw [List.length_append, htake, List.length_replicate, hq1len]
        omega
      rw [List.getD_eq_getElem _ _ hl, List.getElem_append_right (by omega),
        List.getElem_replicate]
    · refine List.getD_eq_default _ _ ?_
      rw [List.length_append, htake, List.length_replicate, hq1len]
      omega
  · intro t ht
    rw [hq', List.getD_append _ _ _ _ (by omega)]
    have hlt : t < ((q.set (vl - 1) (gt.getD (vl - 1) 0 - (q.take (vl - 1)).sum)).take vl).length := by
      omega
    have ht2 : t < q.length := by omega
    rw [List.getD_eq_getElem _ _ hlt, List.getElem_take,
      List.getElem_set_ne (by omega) _, List.getD_eq_getElem _ _ ht2]
  · intro hgt0 t ht
    have htl : t < (gaeValueReturnsRow gt).length := by
      simp only [gaeValueReturnsRow, List.length_replicate]
      omega
    rw [List.getD_eq_getElem _ _ htl]
    show (List.replicate gt.length gt.sum)[t] = gt.getD (vl - 1) 0
    rw [List.getElem_replicate]
    exact sum_eq_getD_of_zeros gt (vl - 1) (by omega) hgt0

/-- Witness for C3 at `gt = [0,0,5,0]`, `q = [1,2,3,9]`, valid length `3`: the
value row becomes `[1,2,2,0]` and the returns are the constant `5` on the valid
prefix. -/
theorem C3_gae_value_estimator_witness :
    (([1, 2, 3, 9] : List ℚ).length = ([0, 0, 5, 0] : List ℚ).length
      ∧ 1 ≤ 3 ∧ 3 ≤ ([0, 0, 5, 0] : List ℚ).length)
    ∧ ((gaeValueQRow true [0, 0, 5, 0] [1, 2, 3, 9] 3).getD (3 - 1) 0
        = ([0, 0, 5, 0] : List ℚ).getD (3 - 1) 0 - (([1, 2, 3, 9] : List ℚ).take (3 - 1)).sum)
    ∧ (∀ t < 3, (gaeValueReturnsRow [0, 0, 5, 0]).getD t 0
        = ([0, 0, 5, 0] : List ℚ).getD (3 - 1) 0)
    ∧ gaeValueQRow true [0, 0, 5, 0] [1, 2, 3, 9] 3 = [1, 2, 2, 0] := by
  have h := C3_gae_value_estimator [0, 0, 5, 0] [1, 2, 3, 9] 3 (1/2)
    rfl (by norm_num) (by norm_num)
  refine ⟨⟨rfl, by norm_num, by norm_num⟩, h.1, h.2.2.2.2.1 (by decide), ?_⟩
  norm_num [gaeValueQRow, List.set]

end VerlPrime
